import Mathlib

/-!
Verification of the privacy-budget scheduler (columbia/dpack).

This file shallowly embeds the parts of the code base that the claims C1..C10
are about:

* `Budget` and its operations (src/privacypacking/budget/budget.py);
* the local knapsack solver of `SoftKnapsack` / `ArgmaxKnapsack` and the
  `OverflowRelevance` / `BatchOverflowRelevance` / `SoftmaxOverflow` metrics
  (src/privacypacking/schedulers/metrics.py);
* the block-selection policies (src/privacypacking/budget/block_selection.py);
* the termination clock of the resource manager
  (src/privacypacking/simulator/resourcemanager.py).

Python floats are idealised as rationals (`ℚ`), except where IEEE special
values (NaN, ±inf) are behaviourally relevant, in which case the `PyFloat`
type models them explicitly.  Fallible code (assertions, `KeyError`,
`ValueError`, `TypeError`) is modelled with `Option`: `none` is an uncaught
exception.
-/

namespace DPack

/-- The fixed default list of RDP orders (`ALPHAS` in budget/budget.py):
{1.5, 1.75, 2, 2.5, 3, 4, 5, 6, 8, 16, 32, 64}. -/
def ALPHAS : List ℚ := [3/2, 7/4, 2, 5/2, 3, 4, 5, 6, 8, 16, 32, 64]

/-- An RDP budget (`Budget` in budget/budget.py): a finite mapping from
orders α to values ε.  The python class keeps a dict `__orders`; we keep
the (ordered) list of keys and the value function. -/
structure Budget (R : Type) where
  alphas : List ℚ
  epsilon : ℚ → R

/-- First-match lookup in an association list (python dict lookup once the
keys are unique). -/
def lookupQ {R : Type} : List (ℚ × R) → ℚ → Option R
  | [], _ => none
  | (k, v) :: t, a => if a = k then some v else lookupQ t a

/-- Build a `Budget` from key/value pairs, mirroring `Budget.__init__`:
the dict is sorted by α (`for alpha in sorted(orders)`), duplicate keys
collapse with the last value winning (python dict construction). -/
def Budget.ofOrders {R : Type} [Zero R] (l : List (ℚ × R)) : Budget R :=
  ⟨List.insertionSort (· ≤ ·) (l.map Prod.fst).dedup,
   fun a => (lookupQ l.reverse a).getD 0⟩

/-- `Budget.epsilons`: the list of ε values, in key order. -/
def Budget.epsilons {R : Type} (b : Budget R) : List R :=
  b.alphas.map b.epsilon

/-- `Budget.is_positive_all_alphas`: `False` as soon as one ε is `< 0`,
`True` otherwise (note: a zero ε passes). -/
def Budget.is_positive_all_alphas (b : Budget ℚ) : Bool :=
  b.epsilons.all (fun e => decide (0 ≤ e))

/-- The sorted intersection of two support lists, as computed by
`Budget.same_support` (`sorted(set(a).intersection(b))`). -/
def sortedInter (xs ys : List ℚ) : List ℚ :=
  List.insertionSort (· ≤ ·) ((xs.filter (fun a => decide (a ∈ ys))).dedup)

/-- `Budget.same_support`: restrict both budgets to the (sorted)
intersection of their supports. -/
def Budget.same_support (b1 b2 : Budget ℚ) : Budget ℚ × Budget ℚ :=
  (⟨sortedInter b1.alphas b2.alphas, b1.epsilon⟩,
   ⟨sortedInter b1.alphas b2.alphas, b2.epsilon⟩)

/-- `Budget.__sub__`: reduce to the shared support, subtract pointwise. -/
def Budget.sub (b1 b2 : Budget ℚ) : Budget ℚ :=
  ⟨sortedInter b1.alphas b2.alphas, fun a => b1.epsilon a - b2.epsilon a⟩

/-- `Budget.can_allocate`: assert `demand.is_positive_all_alphas()`
(an `AssertionError`, modelled as `none`, if it fails), then return
whether `max((self - demand).epsilons) >= 0`.  `max` of an empty list
raises `ValueError`, also modelled as `none`. -/
def Budget.can_allocate (b demand : Budget ℚ) : Option Bool :=
  if demand.is_positive_all_alphas then
    match (b.sub demand).epsilons.max? with
    | none => none
    | some m => some (decide (0 ≤ m))
  else none

/-- `Budget.__eq__`: iterate over `self`'s alphas and compare
`other.epsilon(alpha)` with `self.epsilon(alpha)`.  Looking up an α that
`other` does not carry raises `KeyError` (modelled as `none`). -/
def budEqAux (selfEps : ℚ → ℚ) (other : Budget ℚ) : List ℚ → Option Bool
  | [] => some true
  | a :: rest =>
    if a ∈ other.alphas then
      if other.epsilon a ≠ selfEps a then some false
      else budEqAux selfEps other rest
    else none

/-- `Budget.__eq__` on budgets (see `budEqAux`). -/
def Budget.eq (b other : Budget ℚ) : Option Bool :=
  budEqAux b.epsilon other b.alphas

/-- `Budget.from_epsilon_delta`: the RDP lower envelope
`ε(α) = max(ε + ln(δ)/(α−1), 0)` over the given list of orders. -/
noncomputable def Budget.from_epsilon_delta (ε δ : ℝ) (alpha_list : List ℚ) :
    Budget ℝ :=
  Budget.ofOrders
    (alpha_list.map (fun a => (a, max (ε + Real.log δ / ((a : ℝ) - 1)) 0)))

/-- The `(epsilon, delta, best_alpha)` triple returned by `dp_budget`
(`ConvertedDPBudget` in budget/budget.py). -/
structure DPBudget where
  epsilon : ℚ
  delta : ℚ
  best_alpha : ℚ

/-- `Budget.dp_budget(delta)`.  The tight RDP→DP conversion itself is
`opacus.accountants.analysis.rdp.get_privacy_spent`, an external library
function, modelled by the parameter `conv` mapping (alphas, epsilons,
delta) to the pair (epsilon, best_alpha).  The per-object cache
(`self.dp_budget_cached`) is threaded explicitly: the function takes the
current cache and returns the result together with the new cache. -/
def Budget.dp_budget (conv : List ℚ → List ℚ → ℚ → ℚ × ℚ) (b : Budget ℚ)
    (cache : Option DPBudget) (delta : ℚ) : DPBudget × Option DPBudget :=
  match cache with
  | some c => (c, some c)
  | none =>
    let p := conv b.alphas b.epsilons delta
    (⟨p.1, delta, p.2⟩, some ⟨p.1, delta, p.2⟩)

/-- One suspension/step of the `termination_clock` generator
(resourcemanager.py): waiting on the `block_production_terminated` event,
a `timeout`, or triggering `task_production_terminated` if not yet
triggered. -/
inductive ClockStep where
  | waitBlockProdTerminated
  | timeout (delta : ℚ)
  | triggerTaskProdIfNot

/-- The body of `ResourceManager.termination_clock`, in order: wait for
`block_production_terminated`; `timeout(block_arrival_interval)`; trigger
`task_production_terminated` if it has not fired; then
`timeout(data_lifetime)`. -/
def termination_clock (block_arrival_interval data_lifetime : ℚ) :
    List ClockStep :=
  [ClockStep.waitBlockProdTerminated,
   ClockStep.timeout block_arrival_interval,
   ClockStep.triggerTaskProdIfNot,
   ClockStep.timeout data_lifetime]

/-- config.py: `self.block_arrival_interval = 1` (and
`set_block_arrival_time` returns it). -/
def blockArrivalInterval : ℚ := 1

/-- State of the simulated event loop as seen by the termination clock:
the current virtual time and the time (if any) at which
`task_production_terminated` was triggered. -/
structure ClockState where
  now : ℚ
  taskProdTriggeredAt : Option ℚ

/-- Discrete-event semantics of one clock step.  Waiting on the
block-production event resumes at the time the event fires (it fires at
`blockProdTerminatedAt`, never before the clock starts waiting in the
batch run). -/
def runClockStep (blockProdTerminatedAt : ℚ) (s : ClockState) :
    ClockStep → ClockState
  | ClockStep.waitBlockProdTerminated =>
    ⟨max s.now blockProdTerminatedAt, s.taskProdTriggeredAt⟩
  | ClockStep.timeout d => ⟨s.now + d, s.taskProdTriggeredAt⟩
  | ClockStep.triggerTaskProdIfNot =>
    match s.taskProdTriggeredAt with
    | some t => ⟨s.now, some t⟩
    | none => ⟨s.now, some s.now⟩

/-- Run a clock program from a state. -/
def runClock (blockProdTerminatedAt : ℚ) (s : ClockState)
    (prog : List ClockStep) : ClockState :=
  prog.foldl (runClockStep blockProdTerminatedAt) s

/-- The greedy loop of `SoftKnapsack.solve_local_knapsack_no_profits`
(metrics.py): walk the sorted demands, taking every demand that still
fits; `s` is the running sum, `opt` the count so far. -/
def greedyLoop (capacity : ℚ) : List ℚ → ℚ → ℕ → ℕ
  | [], _, opt => opt
  | d :: rest, s, opt =>
    if s + d ≤ capacity then greedyLoop capacity rest (s + d) (opt + 1)
    else greedyLoop capacity rest s opt

/-- `solve_local_knapsack_no_profits(capacity, task_demands)`: return 0
when the capacity is ≤ 0; otherwise sort the demand values ascending and
run the greedy counting loop. -/
def solve_local_knapsack_no_profits (capacity : ℚ)
    (task_demands : List ℚ) : ℕ :=
  if capacity ≤ 0 then 0
  else greedyLoop capacity (task_demands.insertionSort (· ≤ ·)) 0 0

/-- Remaining-capacity reformulation of `greedyLoop`, used in proofs:
take the head if it fits in the remaining capacity. -/
def greedyCount (c : ℚ) : List ℚ → ℕ
  | [] => 0
  | d :: rest => if d ≤ c then greedyCount (c - d) rest + 1 else greedyCount c rest

/-- Sampling without replacement (`random.sample`, and
`np.random.choice(..., replace=False, p=...)`): at each step the RNG
stream picks one element of the remaining population and removes it.
The claims proved about the block-selection policies are independent of
the sampling distribution, so the stream `rand` is left abstract. -/
def drawDistinct (rand : ℕ → ℕ) : List ℕ → ℕ → ℕ → List ℕ
  | _, 0, _ => []
  | [], _ + 1, _ => []
  | p :: ps, k + 1, i =>
    (p :: ps).get ⟨rand i % (p :: ps).length,
      Nat.mod_lt _ (Nat.succ_pos ps.length)⟩ ::
      drawDistinct rand ((p :: ps).eraseIdx (rand i % (p :: ps).length)) k
        (i + 1)

/-- The five block-selection policies of budget/block_selection.py. -/
inductive BlockPolicy where
  | randomBlocks
  | latestBlocksFirst
  | contiguousBlocksRandomOffset
  | biasedRandomBlocks
  | zeta

/-- `select_blocks(blocks, task_blocks_num)` for each policy.  All five
raise `NotEnoughBlocks` (modelled as `Except.error ()`) when
`task_blocks_num > n_blocks`.  `biasedCoin` models the 0.7/0.3 binary
draw of `BiasedRandomBlocks` (`true` = the biased, even-preferring
branch); `Zeta`'s weights only shape the sampling distribution, which
the abstract stream already covers. -/
def select_blocks (p : BlockPolicy) (rand : ℕ → ℕ) (biasedCoin : Bool)
    (n_blocks task_blocks_num : ℕ) : Except Unit (List ℕ) :=
  if n_blocks < task_blocks_num then Except.error ()
  else Except.ok
    (match p with
     | BlockPolicy.randomBlocks =>
       drawDistinct rand (List.range n_blocks) task_blocks_num 0
     | BlockPolicy.latestBlocksFirst =>
       (List.range' (n_blocks - task_blocks_num) task_blocks_num).reverse
     | BlockPolicy.contiguousBlocksRandomOffset =>
       List.range' (rand 0 % (n_blocks - task_blocks_num + 1)) task_blocks_num
     | BlockPolicy.biasedRandomBlocks =>
       if biasedCoin then
         let evens := (List.range n_blocks).filter (fun i => i % 2 == 0)
         let odds := (List.range n_blocks).filter (fun i => ! (i % 2 == 0))
         if evens.length < task_blocks_num then
           evens ++ drawDistinct rand odds (task_blocks_num - evens.length) 0
         else drawDistinct rand evens task_blocks_num 0
       else drawDistinct rand (List.range n_blocks) task_blocks_num 0
     | BlockPolicy.zeta =>
       drawDistinct rand (List.range n_blocks) task_blocks_num 0)

/-- A task as the metrics see it (budget/task.py): a profit and the
`budget_per_block` dict, kept as an association list from block id to
demand budget (dict keys are unique in python; where that matters the
theorems assume it). -/
structure TaskM where
  profit : ℚ
  budget_per_block : List (ℕ × Budget ℚ)

/-- The nested dict `overflow_b_a` of `OverflowRelevance.apply`,
modelled as a partial map on (block id, α); `none` means the key is
absent (a lookup raises `KeyError`). -/
def OvDict : Type := ℕ → ℚ → Option ℚ

/-- One α of the inner loop of `OverflowRelevance.apply` for the entry
`e = (block_id, block_demand)`: initialise the dict entry to
`-initial_budget.epsilon(a)` if absent, then add the demand at `a`. -/
def ovStep (blocks : ℕ → Budget ℚ) (e : ℕ × Budget ℚ) (d2 : OvDict)
    (a : ℚ) : OvDict :=
  fun b x =>
    if b = e.1 ∧ x = a then
      some ((d2 e.1 a).getD (-(blocks e.1).epsilon a) + e.2.epsilon a)
    else d2 b x

/-- Processing one `(block_id, block_demand)` item of a pending task in
`OverflowRelevance.apply`: run `ovStep` over the demand's alphas. -/
def ovUpdate (blocks : ℕ → Budget ℚ) (d : OvDict) (e : ℕ × Budget ℚ) :
    OvDict :=
  e.2.alphas.foldl (ovStep blocks e) d

/-- The `overflow_b_a` dict built by iterating every pending task and
every block it touches. -/
def overflowDict (blocks : ℕ → Budget ℚ) (tasks : List TaskM) : OvDict :=
  tasks.foldl (fun d t => t.budget_per_block.foldl (ovUpdate blocks) d)
    (fun _ _ => none)

/-- The per-block cost loop of `OverflowRelevance.apply`: walk the
demand's alphas, adding `demand/overflow` while the overflow is
positive; at the first non-positive overflow the block's cost becomes 0
(`break`).  A missing key is a `KeyError` (`none`). -/
def blockCostLoop (ov : OvDict) (bid : ℕ) (dem : Budget ℚ) :
    List ℚ → ℚ → Option ℚ
  | [], acc => some acc
  | a :: rest, acc =>
    match ov bid a with
    | none => none
    | some o =>
      if 0 < o then blockCostLoop ov bid dem rest (acc + dem.epsilon a / o)
      else some 0

/-- `OverflowRelevance.apply(task, blocks, tasks)`: build `overflow_b_a`
from the pending tasks, compute each touched block's cost, sum them and
return `profit / total_cost`, or `+inf` when the total is ≤ 0. -/
def overflowRelevanceApply (task : TaskM) (blocks : ℕ → Budget ℚ)
    (tasks : List TaskM) : Option (WithTop ℚ) :=
  (task.budget_per_block.foldl
      (fun acc e => acc.bind (fun s =>
        (blockCostLoop (overflowDict blocks tasks) e.1 e.2 e.2.alphas 0).map
          (fun c => s + c)))
      (some 0)).map
    (fun total =>
      if total ≤ 0 then (⊤ : WithTop ℚ)
      else ((task.profit / total : ℚ) : WithTop ℚ))

/-- Spec-side: the summed demand of the entries of `l` that name block
`b`, at order `a`. -/
def entrySum (l : List (ℕ × Budget ℚ)) (b : ℕ) (a : ℚ) : ℚ :=
  ((l.filter (fun e => decide (e.1 = b))).map (fun e => e.2.epsilon a)).sum

/-- Modelled from the spec sentence of C3:
`overflow(b,α) = Σ_{t∈pending} t.demand.ε(α) − initial(b).ε(α)`. -/
def overflowSpec (blocks : ℕ → Budget ℚ) (tasks : List TaskM) (b : ℕ)
    (a : ℚ) : ℚ :=
  (tasks.map (fun t => entrySum t.budget_per_block b a)).sum -
    (blocks b).epsilon a

/-- Does some pending task touch block `b`? -/
def touches (tasks : List TaskM) (b : ℕ) : Bool :=
  tasks.any (fun t => t.budget_per_block.any (fun e => decide (e.1 = b)))

/-- Modelled from the spec sentence of C3: a block's cost is
`Σ_α demand.ε(α)/overflow(b,α)`, except that it is 0 as soon as some α
has `overflow(b,α) ≤ 0`. -/
def blockCostSpec (blocks : ℕ → Budget ℚ) (tasks : List TaskM) (b : ℕ)
    (dem : Budget ℚ) : ℚ :=
  if dem.alphas.any (fun a => decide (overflowSpec blocks tasks b a ≤ 0))
  then 0
  else (dem.alphas.map (fun a => dem.epsilon a / overflowSpec blocks tasks b a)).sum

/-- Modelled from the spec sentence of C3: the OverflowRelevance rank,
`profit / total_cost`, or `+inf` when the total cost is ≤ 0. -/
def overflowRelevanceSpec (task : TaskM) (blocks : ℕ → Budget ℚ)
    (tasks : List TaskM) : WithTop ℚ :=
  if (task.budget_per_block.map
      (fun e => blockCostSpec blocks tasks e.1 e.2)).sum ≤ 0 then ⊤
  else ((task.profit /
      (task.budget_per_block.map
        (fun e => blockCostSpec blocks tasks e.1 e.2)).sum : ℚ) : WithTop ℚ)

/-- ℚ extended with +inf, for the online overflow dict of
`BatchOverflowRelevance` (exhausted alphas hold `float("inf")`). -/
inductive QInf where
  | inf
  | val (q : ℚ)
deriving DecidableEq

/-- Adding a float to a possibly-infinite value: `inf + q = inf`. -/
def QInf.addQ : QInf → ℚ → QInf
  | QInf.inf, _ => QInf.inf
  | QInf.val v, q => QInf.val (v + q)

/-- The test `overflow > 0` (`inf > 0` is true). -/
def QInf.posb : QInf → Bool
  | QInf.inf => true
  | QInf.val v => decide (0 < v)

/-- The float quotient `d / overflow` (`d / inf = 0.0`). -/
def QInf.divQ : QInf → ℚ → ℚ
  | QInf.inf, _ => 0
  | QInf.val v, d => d / v

/-- Association-list update with python-dict semantics: replace in place
when the key exists, append otherwise. -/
def alSet {K V : Type} [DecidableEq K] : List (K × V) → K → V → List (K × V)
  | [], k, v => [(k, v)]
  | (k', v') :: t, k, v =>
    if k = k' then (k, v) :: t else (k', v') :: alSet t k v

/-- Association-list lookup (keys are unique by construction). -/
def alLookup {K V : Type} [DecidableEq K] : List (K × V) → K → Option V
  | [], _ => none
  | (k', v') :: t, k => if k = k' then some v' else alLookup t k

/-- The nested `overflow_b_a` dict of `BatchOverflowRelevance`: block id
→ (α → overflow), values possibly +inf.  The outer dict's emptiness is
what `if overflow:` tests in `apply`. -/
abbrev OvA : Type := List (ℕ × List (ℚ × QInf))

/-- Inner α loop of `BatchOverflowRelevance.compute_overflow` for one
`(block_id, block_demand)` item: initialise an absent entry to
`-available_unlocked_budget` when that budget is positive and to
`float("inf")` otherwise, then add the demand (inf stays inf). -/
def computeOverflowInner (avail : ℕ → Budget ℚ) (bid : ℕ) (dem : Budget ℚ)
    (inn : List (ℚ × QInf)) : List (ℚ × QInf) :=
  dem.alphas.foldl
    (fun inn2 a =>
      alSet inn2 a
        ((match alLookup inn2 a with
          | some v => v
          | none =>
            if 0 < (avail bid).epsilon a then QInf.val (-(avail bid).epsilon a)
            else QInf.inf).addQ (dem.epsilon a)))
    inn

/-- `BatchOverflowRelevance.compute_overflow(blocks, tasks)`.  The
`tasks` parameter is an `Option`: its default is `None`, and iterating
`None` (`for t in tasks`) raises `TypeError`, modelled as `none`. -/
def compute_overflow (avail : ℕ → Budget ℚ) :
    Option (List TaskM) → Option OvA
  | none => none
  | some ts =>
    some (ts.foldl
      (fun ov t => t.budget_per_block.foldl
        (fun ov2 e =>
          alSet ov2 e.1
            (computeOverflowInner avail e.1 e.2 ((alLookup ov2 e.1).getD [])))
        ov)
      [])

/-- Per-block cost loop of `BatchOverflowRelevance.apply`: like
`OverflowRelevance`, but overflow values may be +inf (then
`demand/overflow = 0`); missing keys raise `KeyError` (`none`). -/
def blockCostLoopBatch (ov : OvA) (bid : ℕ) (dem : Budget ℚ) :
    List ℚ → ℚ → Option ℚ
  | [], acc => some acc
  | a :: rest, acc =>
    match (alLookup ov bid).bind (fun inn => alLookup inn a) with
    | none => none
    | some o =>
      if o.posb then
        blockCostLoopBatch ov bid dem rest (acc + o.divQ (dem.epsilon a))
      else some 0

/-- `BatchOverflowRelevance.apply(task, blocks, tasks, overflow)`.  The
`overflow` argument is the precomputed dict; python's `None` default and
an empty dict are both falsy, so both are modelled by `[]`.  On the
falsy path the code calls `BatchOverflowRelevance.compute_overflow(blocks,
tasks)` on the class: the positional arguments shift, `blocks` binds as
`self`, the pending tasks land in the `blocks` slot, and the `tasks`
parameter keeps its default `None` — hence the call is modelled as
`compute_overflow avail none`. -/
def BatchOverflowRelevance_apply (task : TaskM) (avail : ℕ → Budget ℚ)
    (tasks : Option (List TaskM)) (overflow : OvA) : Option (WithTop ℚ) :=
  (if overflow ≠ [] then some overflow else compute_overflow avail none).bind
    (fun ov =>
      (task.budget_per_block.foldl
          (fun acc e => acc.bind (fun s =>
            (blockCostLoopBatch ov e.1 e.2 e.2.alphas 0).map (fun c => s + c)))
          (some 0)).map
        (fun total =>
          if total ≤ 0 then (⊤ : WithTop ℚ)
          else ((task.profit / total : ℚ) : WithTop ℚ)))

/-- IEEE-754 double as the numpy pipeline of `SoftmaxOverflow` sees it:
NaN, ±inf, or a finite value (idealised as ℚ). -/
inductive PyFloat where
  | nan
  | inf
  | ninf
  | fin (q : ℚ)
deriving DecidableEq

/-- IEEE negation. -/
def PyFloat.neg : PyFloat → PyFloat
  | PyFloat.nan => PyFloat.nan
  | PyFloat.inf => PyFloat.ninf
  | PyFloat.ninf => PyFloat.inf
  | PyFloat.fin q => PyFloat.fin (-q)

/-- IEEE addition (NaN propagates; `inf + (-inf) = NaN`). -/
def PyFloat.add : PyFloat → PyFloat → PyFloat
  | PyFloat.nan, _ => PyFloat.nan
  | _, PyFloat.nan => PyFloat.nan
  | PyFloat.inf, PyFloat.ninf => PyFloat.nan
  | PyFloat.ninf, PyFloat.inf => PyFloat.nan
  | PyFloat.inf, _ => PyFloat.inf
  | _, PyFloat.inf => PyFloat.inf
  | PyFloat.ninf, _ => PyFloat.ninf
  | _, PyFloat.ninf => PyFloat.ninf
  | PyFloat.fin a, PyFloat.fin b => PyFloat.fin (a + b)

/-- IEEE subtraction. -/
def PyFloat.sub (x y : PyFloat) : PyFloat := x.add y.neg

/-- IEEE multiplication (`0 * inf = NaN`). -/
def PyFloat.mul : PyFloat → PyFloat → PyFloat
  | PyFloat.nan, _ => PyFloat.nan
  | _, PyFloat.nan => PyFloat.nan
  | PyFloat.inf, PyFloat.inf => PyFloat.inf
  | PyFloat.inf, PyFloat.ninf => PyFloat.ninf
  | PyFloat.ninf, PyFloat.inf => PyFloat.ninf
  | PyFloat.ninf, PyFloat.ninf => PyFloat.inf
  | PyFloat.inf, PyFloat.fin q =>
    if q = 0 then PyFloat.nan else if 0 < q then PyFloat.inf else PyFloat.ninf
  | PyFloat.fin q, PyFloat.inf =>
    if q = 0 then PyFloat.nan else if 0 < q then PyFloat.inf else PyFloat.ninf
  | PyFloat.ninf, PyFloat.fin q =>
    if q = 0 then PyFloat.nan else if 0 < q then PyFloat.ninf else PyFloat.inf
  | PyFloat.fin q, PyFloat.ninf =>
    if q = 0 then PyFloat.nan else if 0 < q then PyFloat.ninf else PyFloat.inf
  | PyFloat.fin a, PyFloat.fin b => PyFloat.fin (a * b)

/-- IEEE division as numpy computes it (`x/0 = ±inf` with a warning,
`0/0 = NaN`, `x/inf = 0`; ℚ has no negative zero). -/
def PyFloat.div : PyFloat → PyFloat → PyFloat
  | PyFloat.nan, _ => PyFloat.nan
  | _, PyFloat.nan => PyFloat.nan
  | PyFloat.inf, PyFloat.inf => PyFloat.nan
  | PyFloat.inf, PyFloat.ninf => PyFloat.nan
  | PyFloat.ninf, PyFloat.inf => PyFloat.nan
  | PyFloat.ninf, PyFloat.ninf => PyFloat.nan
  | PyFloat.inf, PyFloat.fin q =>
    if 0 ≤ q then PyFloat.inf else PyFloat.ninf
  | PyFloat.ninf, PyFloat.fin q =>
    if 0 ≤ q then PyFloat.ninf else PyFloat.inf
  | PyFloat.fin _, PyFloat.inf => PyFloat.fin 0
  | PyFloat.fin _, PyFloat.ninf => PyFloat.fin 0
  | PyFloat.fin a, PyFloat.fin b =>
    if b = 0 then
      (if a = 0 then PyFloat.nan
       else if 0 < a then PyFloat.inf else PyFloat.ninf)
    else PyFloat.fin (a / b)

/-- `np.exp` on doubles; on finite inputs the real exponential is
abstracted by the parameter `realexp`. -/
def PyFloat.pexp (realexp : ℚ → ℚ) : PyFloat → PyFloat
  | PyFloat.nan => PyFloat.nan
  | PyFloat.inf => PyFloat.inf
  | PyFloat.ninf => PyFloat.fin 0
  | PyFloat.fin q => PyFloat.fin (realexp q)

/-- IEEE `≤` (comparisons with NaN are false). -/
def PyFloat.leb : PyFloat → PyFloat → Bool
  | PyFloat.nan, _ => false
  | _, PyFloat.nan => false
  | PyFloat.ninf, _ => true
  | _, PyFloat.inf => true
  | PyFloat.inf, _ => false
  | PyFloat.fin _, PyFloat.ninf => false
  | PyFloat.fin a, PyFloat.fin b => decide (a ≤ b)

/-- Pairwise minimum as `np.min` reduces (NaN propagates). -/
def PyFloat.min2 : PyFloat → PyFloat → PyFloat
  | PyFloat.nan, _ => PyFloat.nan
  | _, PyFloat.nan => PyFloat.nan
  | x, y => if x.leb y then x else y

/-- `np.min` over a row (rows here are never empty: one entry per α). -/
def rowMin : List PyFloat → PyFloat
  | [] => PyFloat.nan
  | x :: xs => xs.foldl PyFloat.min2 x

/-- `SoftmaxOverflow.compute_relevance_matrix` (metrics.py), with
`truncate_available_budget = False` and
`drop_blocks_with_no_contention = True` (the defaults).  `blocksAvail`
lists each block's `available_unlocked_budget.epsilon`; `demands` lists
each pending task's dense `demand_matrix` as a function of (block index,
α).  Marked step by step:
1. available_budget[b, α] = ε if ε ≥ 0 else −inf;
2. sum the demand matrices;
3. overflow = sum_demands − available_budget;
4. for each block whose row min is ≤ 0 the code runs
   `overflow[block_id] = np.empty(...).fill(inf)`; `ndarray.fill`
   mutates in place and returns `None`, and assigning `None` into a
   float row stores NaN — so the row becomes all-NaN, not all-inf;
5. softmax of `−temperature · overflow` row-wise (sum + 1e-15);
6. divide by available_budget. -/
def SoftmaxOverflow_relevance (realexp : ℚ → ℚ) (temperature : ℚ)
    (blocksAvail : List (ℚ → ℚ)) (demands : List (ℕ → ℚ → ℚ)) :
    List (List PyFloat) :=
  let availableBudget : List (List PyFloat) :=
    blocksAvail.map (fun avail =>
      ALPHAS.map (fun a =>
        if 0 ≤ avail a then PyFloat.fin (avail a) else PyFloat.ninf))
  let sumDemands : List (List PyFloat) :=
    (List.range blocksAvail.length).map (fun bid =>
      ALPHAS.map (fun a => PyFloat.fin ((demands.map (fun t => t bid a)).sum)))
  let overflow : List (List PyFloat) :=
    List.zipWith (fun drow arow => List.zipWith PyFloat.sub drow arow)
      sumDemands availableBudget
  let overflow2 : List (List PyFloat) :=
    overflow.map (fun row =>
      if (rowMin row).leb (PyFloat.fin 0) then
        List.replicate ALPHAS.length PyFloat.nan
      else row)
  let expOverflow : List (List PyFloat) :=
    overflow2.map (fun row =>
      row.map (fun x => PyFloat.pexp realexp ((PyFloat.fin temperature).neg.mul x)))
  let sumPerBlock : List PyFloat :=
    expOverflow.map (fun row =>
      (row.foldl PyFloat.add (PyFloat.fin 0)).add (PyFloat.fin (1 / 10 ^ 15)))
  let softmax : List (List PyFloat) :=
    List.zipWith (fun row s => row.map (fun x => x.div s)) expOverflow
      sumPerBlock
  List.zipWith (fun srow arow => List.zipWith PyFloat.div srow arow) softmax
    availableBudget

/-- Concrete task with no per-block demand (witness data). -/
def taskEmpty : TaskM := ⟨1, []⟩

/-- Concrete block map with empty budgets (witness data). -/
def availEmpty : ℕ → Budget ℚ := fun _ => Budget.ofOrders []

/-- Concrete demand budget with ε = 3 at α = 2 (witness data). -/
def demB : Budget ℚ := Budget.ofOrders [(2, 3)]

/-- Concrete task demanding `demB` on block 0 with profit 2. -/
def taskC3 : TaskM := ⟨2, [(0, demB)]⟩

/-- Concrete block map: every block has initial budget ε = 1 at α = 2. -/
def blocksC3 : ℕ → Budget ℚ := fun _ => Budget.ofOrders [(2, 1)]

/-- Concrete budget with ε = 1 at α = 2. -/
def budOne : Budget ℚ := Budget.ofOrders [(2, 1)]

/-- Concrete budget with ε = 0 at α = 2 (an all-zero demand). -/
def budZero : Budget ℚ := Budget.ofOrders [(2, 0)]

/-- Concrete budget with support {3}. -/
def budA : Budget ℚ := Budget.ofOrders [(3, 1)]

/-- Concrete budget with support {2, 3}, agreeing with `budA` on α = 3. -/
def budB : Budget ℚ := Budget.ofOrders [(2, 5), (3, 1)]

end DPack

namespace DPack

theorem mem_sortedInter {a : ℚ} {xs ys : List ℚ} :
    a ∈ sortedInter xs ys ↔ a ∈ xs ∧ a ∈ ys := by
  unfold sortedInter
  rw [List.mem_insertionSort, List.mem_dedup, List.mem_filter]
  simp

theorem is_positive_all_alphas_iff (b : Budget ℚ) :
    b.is_positive_all_alphas = true ↔ ∀ a ∈ b.alphas, 0 ≤ b.epsilon a := by
  unfold Budget.is_positive_all_alphas Budget.epsilons
  rw [List.all_eq_true]
  constructor
  · intro h a ha
    have := h (b.epsilon a) (List.mem_map_of_mem _ ha)
    exact of_decide_eq_true this
  · intro h e he
    rcases List.mem_map.1 he with ⟨a, ha, rfl⟩
    exact decide_eq_true (h a ha)

instance : Std.Antisymm (fun x y : ℚ => x ≤ y) :=
  ⟨fun h1 h2 => le_antisymm h1 h2⟩

theorem max?_nonneg_iff (l : List ℚ) :
    (match l.max? with
      | none => (none : Option Bool)
      | some m => some (decide (0 ≤ m))) = some true ↔ ∃ x ∈ l, 0 ≤ x := by
  have hiff : ∀ m : ℚ, l.max? = some m ↔ m ∈ l ∧ ∀ b ∈ l, b ≤ m := fun m =>
    List.max?_eq_some_iff (fun a => le_refl a) (fun a b => max_choice a b)
      (fun a b c => max_le_iff)
  cases hmax : l.max? with
  | none =>
    simp only [List.max?_eq_none_iff] at hmax
    subst hmax
    simp
  | some m =>
    rcases (hiff m).1 hmax with ⟨hmem, hub⟩
    constructor
    · intro h
      have : (0 : ℚ) ≤ m := of_decide_eq_true (Option.some.inj h)
      exact ⟨m, hmem, this⟩
    · rintro ⟨x, hx, hx0⟩
      have : (0 : ℚ) ≤ m := le_trans hx0 (hub x hx)
      simp [this]

/-- C1 (amended): `can_allocate(r, d)` returns `True` iff `d` is
nonnegative at every α of its support and some α shared by `r` and `d`
satisfies `r.ε(α) ≥ d.ε(α)`.  (The positivity assertion in the source is
in fact a nonnegativity check, so an all-zero demand is allocatable.) -/
theorem c1_can_allocate_amended (r d : Budget ℚ) :
    Budget.can_allocate r d = some true ↔
      (∀ a ∈ d.alphas, 0 ≤ d.epsilon a) ∧
        ∃ a, a ∈ r.alphas ∧ a ∈ d.alphas ∧ d.epsilon a ≤ r.epsilon a := by
  unfold Budget.can_allocate
  by_cases hpos : d.is_positive_all_alphas
  · rw [if_pos hpos]
    rw [is_positive_all_alphas_iff] at hpos
    rw [max?_nonneg_iff]
    have hsub : (r.sub d).epsilons =
        (sortedInter r.alphas d.alphas).map (fun a => r.epsilon a - d.epsilon a) := rfl
    rw [hsub]
    constructor
    · rintro ⟨x, hx, hx0⟩
      rcases List.mem_map.1 hx with ⟨a, ha, rfl⟩
      rcases mem_sortedInter.1 ha with ⟨har, had⟩
      exact ⟨hpos, a, har, had, by linarith⟩
    · rintro ⟨_, a, har, had, hle⟩
      refine ⟨r.epsilon a - d.epsilon a, ?_, by linarith⟩
      exact List.mem_map_of_mem _ (mem_sortedInter.2 ⟨har, had⟩)
  · rw [if_neg hpos]
    rw [is_positive_all_alphas_iff] at hpos
    constructor
    · intro h
      simp at h
    · rintro ⟨hnn, _⟩
      exact absurd hnn hpos

/-- C1 counterexample: the all-zero demand `budZero` is accepted by
`can_allocate` against the budget `budOne`, although it is not positive at
any α — the claim "a demand that is zero on every α is treated as
infeasible" is false on the code. -/
theorem c1_counterexample :
    Budget.can_allocate budOne budZero = some true ∧
      ¬ (∀ a ∈ budZero.alphas, 0 < budZero.epsilon a) := by
  constructor
  · simp [Budget.can_allocate, Budget.is_positive_all_alphas, Budget.epsilons,
      Budget.sub, Budget.ofOrders, sortedInter, lookupQ, budOne, budZero,
      List.insertionSort, List.orderedInsert, List.max?]
  · intro h
    have := h 2 (by decide)
    norm_num [budZero, Budget.ofOrders, lookupQ] at this

/-- C9 (amended): `a == b` returns `True` iff every α of `a`'s support is
in `b`'s support with the same ε.  It says nothing about the rest of `b`'s
support, is not symmetric, and raises `KeyError` when `a`'s support is not
contained in `b`'s. -/
theorem c9_eq_amended (a b : Budget ℚ) :
    Budget.eq a b = some true ↔
      ∀ x ∈ a.alphas, x ∈ b.alphas ∧ b.epsilon x = a.epsilon x := by
  unfold Budget.eq
  induction a.alphas with
  | nil => simp [budEqAux]
  | cons y rest ih =>
    simp only [budEqAux]
    by_cases hy : y ∈ b.alphas
    · rw [if_pos hy]
      by_cases hne : b.epsilon y ≠ a.epsilon y
      · rw [if_pos hne]
        constructor
        · intro h
          simp at h
        · intro h
          exact absurd (h y (List.mem_cons_self y rest)).2 hne
      · rw [if_neg hne]
        push_neg at hne
        rw [ih]
        constructor
        · intro h x hx
          rcases List.mem_cons.1 hx with rfl | hx'
          · exact ⟨hy, hne⟩
          · exact h x hx'
        · intro h x hx
          exact h x (List.mem_cons_of_mem _ hx)
    · rw [if_neg hy]
      constructor
      · intro h
        simp at h
      · intro h
        exact absurd (h y (List.mem_cons_self y rest)).1 hy

/-- C9 counterexample: with `budA = {3: 1}` and `budB = {2: 5, 3: 1}`,
`budA == budB` returns `True` although the supports differ, and
`budB == budA` raises `KeyError` — equality is neither "exact per α with
the same support" nor symmetric, and it can raise. -/
theorem c9_counterexample :
    Budget.eq budA budB = some true ∧
      Budget.eq budB budA = none ∧
      budA.alphas ≠ budB.alphas := by
  refine ⟨by decide, by decide, by decide⟩

theorem lookupQ_map_mem {R : Type} (f : ℚ → R) (l : List ℚ) (a : ℚ)
    (h : a ∈ l) : lookupQ (l.map (fun x => (x, f x))) a = some (f a) := by
  induction l with
  | nil => cases h
  | cons x t ih =>
    simp only [List.map_cons, lookupQ]
    by_cases hax : a = x
    · subst hax
      simp
    · rw [if_neg hax]
      exact ih ((List.mem_cons.1 h).resolve_left hax)

theorem ofOrders_epsilon_map {R : Type} [Zero R] (f : ℚ → R) (l : List ℚ)
    (a : ℚ) (h : a ∈ l) :
    (Budget.ofOrders (l.map (fun x => (x, f x)))).epsilon a = f a := by
  unfold Budget.ofOrders
  simp only
  rw [← List.map_reverse, lookupQ_map_mem f l.reverse a (List.mem_reverse.2 h)]
  rfl

theorem ofOrders_mem_alphas_map {R : Type} [Zero R] (f : ℚ → R) (l : List ℚ)
    (b : ℚ) :
    b ∈ (Budget.ofOrders (l.map (fun x => (x, f x)))).alphas ↔ b ∈ l := by
  unfold Budget.ofOrders
  simp only
  rw [List.mem_insertionSort, List.mem_dedup, List.map_map]
  simp

/-- C8: for every ε, δ > 0 and every α in the alpha list, the budget
built by `from_epsilon_delta(ε, δ)` has value `max(ε + ln(δ)/(α−1), 0)`
at α, and its support carries exactly the orders of the alpha list. -/
theorem c8_from_epsilon_delta (ε δ : ℝ) (L : List ℚ) (α : ℚ)
    (hε : 0 < ε) (hδ : 0 < δ) (hα : α ∈ L) :
    (Budget.from_epsilon_delta ε δ L).epsilon α =
        max (ε + Real.log δ / ((α : ℝ) - 1)) 0 ∧
      ∀ β : ℚ, β ∈ (Budget.from_epsilon_delta ε δ L).alphas ↔ β ∈ L := by
  constructor
  · exact ofOrders_epsilon_map
      (fun a => max (ε + Real.log δ / ((a : ℝ) - 1)) 0) L α hα
  · intro β
    exact ofOrders_mem_alphas_map
      (fun a => max (ε + Real.log δ / ((a : ℝ) - 1)) 0) L β

/-- C8 witness at ε = 1, δ = 1/2, alpha list [2, 3], α = 2. -/
theorem c8_witness :
    (Budget.from_epsilon_delta 1 (1/2) [2, 3]).epsilon 2 =
        max ((1 : ℝ) + Real.log (1/2) / ((2 : ℚ) - 1 : ℝ)) 0 ∧
      ∀ β : ℚ, β ∈ (Budget.from_epsilon_delta 1 (1/2) [2, 3]).alphas ↔
        β ∈ [(2 : ℚ), 3] :=
  c8_from_epsilon_delta 1 (1/2) [2, 3] 2 (by norm_num) (by norm_num)
    (by norm_num)

/-- C4: the first call to `dp_budget(δ)` computes the conversion triple
(conversion result at δ, with `delta` field δ) and caches it; any later
call, at the same δ or a different δ', returns the identical cached
triple and leaves the cache unchanged. -/
theorem c4_dp_budget_cached (conv : List ℚ → List ℚ → ℚ → ℚ × ℚ)
    (b : Budget ℚ) (δ δ' : ℚ) :
    (Budget.dp_budget conv b (Budget.dp_budget conv b none δ).2 δ').1 =
        (Budget.dp_budget conv b none δ).1 ∧
      (Budget.dp_budget conv b (Budget.dp_budget conv b none δ).2 δ').2 =
        (Budget.dp_budget conv b none δ).2 ∧
      (Budget.dp_budget conv b none δ).1.delta = δ ∧
      (Budget.dp_budget conv b none δ).1.epsilon =
        (conv b.alphas b.epsilons δ).1 ∧
      (Budget.dp_budget conv b none δ).1.best_alpha =
        (conv b.alphas b.epsilons δ).2 := by
  refine ⟨rfl, rfl, rfl, rfl, rfl⟩

/-- C6 (amended): after `block_production_terminated` fires at time t₀,
the termination clock sleeps `block_arrival_interval` ticks (not
`data_lifetime`) and then triggers `task_production_terminated`, at time
t₀ + block_arrival_interval; only afterwards does it sleep a further
`data_lifetime` ticks, finishing at
t₀ + block_arrival_interval + data_lifetime. -/
theorem c6_termination_clock_amended (t0 bai dl : ℚ) (h0 : 0 ≤ t0) :
    (runClock t0 ⟨0, none⟩ (termination_clock bai dl)).taskProdTriggeredAt =
        some (t0 + bai) ∧
      (runClock t0 ⟨0, none⟩ (termination_clock bai dl)).now = t0 + bai + dl := by
  simp [runClock, termination_clock, runClockStep, max_eq_right h0]

/-- C6 witness at t₀ = 0, block_arrival_interval = 1, data_lifetime = 5. -/
theorem c6_witness :
    (runClock 0 ⟨0, none⟩ (termination_clock 1 5)).taskProdTriggeredAt =
        some (0 + 1) ∧
      (runClock 0 ⟨0, none⟩ (termination_clock 1 5)).now = 0 + 1 + 5 :=
  c6_termination_clock_amended 0 1 5 (le_refl 0)

theorem greedyLoop_eq (capacity : ℚ) :
    ∀ (l : List ℚ) (s : ℚ) (opt : ℕ),
      greedyLoop capacity l s opt = opt + greedyCount (capacity - s) l := by
  intro l
  induction l with
  | nil => intro s opt; simp [greedyLoop, greedyCount]
  | cons d rest ih =>
    intro s opt
    simp only [greedyLoop, greedyCount]
    by_cases h : s + d ≤ capacity
    · rw [if_pos h, if_pos (by linarith : d ≤ capacity - s)]
      rw [ih (s + d) (opt + 1)]
      have : capacity - (s + d) = capacity - s - d := by ring
      rw [this]
      omega
    · rw [if_neg h, if_neg (by intro hc; exact h (by linarith) : ¬ d ≤ capacity - s)]
      exact ih s opt

theorem greedy_achievable :
    ∀ (l : List ℚ) (c : ℚ), 0 ≤ c →
      ∃ s : List ℚ, s.Subperm l ∧ s.sum ≤ c ∧ s.length = greedyCount c l := by
  intro l
  induction l with
  | nil =>
    intro c hc
    exact ⟨[], List.nil_subperm, by simpa using hc, rfl⟩
  | cons d rest ih =>
    intro c hc
    simp only [greedyCount]
    by_cases h : d ≤ c
    · rw [if_pos h]
      obtain ⟨s, hsub, hsum, hlen⟩ := ih (c - d) (by linarith)
      refine ⟨d :: s, (List.subperm_cons d).2 hsub, ?_, by simp [hlen]⟩
      rw [List.sum_cons]
      linarith
    · rw [if_neg h]
      obtain ⟨s, hsub, hsum, hlen⟩ := ih c hc
      exact ⟨s, hsub.trans (List.sublist_cons_self d rest).subperm, hsum, hlen⟩

theorem greedy_optimal :
    ∀ (l : List ℚ), l.Sorted (· ≤ ·) → ∀ (c : ℚ), 0 ≤ c →
      ∀ (s : List ℚ), s.Subperm l → s.sum ≤ c → s.length ≤ greedyCount c l := by
  intro l
  induction l with
  | nil =>
    intro _ c _ s hs _
    rw [List.subperm_nil.1 hs]
    exact Nat.le_refl 0
  | cons d rest ih =>
    intro hsort c hc s hs hsum
    have hd : ∀ x ∈ rest, d ≤ x := (List.sorted_cons.1 hsort).1
    have hrest : rest.Sorted (· ≤ ·) := (List.sorted_cons.1 hsort).2
    obtain ⟨t, htperm, htsub⟩ := hs
    rcases List.sublist_cons_iff.1 htsub with htr | ⟨t', rfl, ht'⟩
    · -- the chosen multiset avoids the head d entirely
      have hsr : s.Subperm rest := ⟨t, htperm, htr⟩
      simp only [greedyCount]
      by_cases h : d ≤ c
      · rw [if_pos h]
        cases s with
        | nil => exact Nat.zero_le _
        | cons e s' =>
          have he : e ∈ rest := hsr.subset (List.mem_cons_self e s')
          have hde : d ≤ e := hd e he
          have hs' : s'.Subperm rest :=
            ((List.sublist_cons_self e s').subperm).trans hsr
          have hsum' : s'.sum ≤ c - d := by
            have : e + s'.sum ≤ c := by
              rw [← List.sum_cons]; exact hsum
            linarith
          have := ih hrest (c - d) (by linarith) s' hs' hsum'
          simpa using Nat.succ_le_succ this
      · rw [if_neg h]
        exact ih hrest c hc s hsr hsum
    · -- the chosen multiset contains the head d
      have hperm : s.Perm (d :: t') := htperm.symm
      have hsum_eq : s.sum = d + t'.sum := by
        rw [hperm.sum_eq, List.sum_cons]
      have hlen_eq : s.length = t'.length + 1 := by
        rw [hperm.length_eq, List.length_cons]
      simp only [greedyCount]
      by_cases h : d ≤ c
      · rw [if_pos h]
        have ht'sub : t'.Subperm rest := ht'.subperm
        have hsum' : t'.sum ≤ c - d := by linarith [hsum_eq ▸ hsum]
        have := ih hrest (c - d) (by linarith) t' ht'sub hsum'
        omega
      · -- the head does not even fit alone: contradiction with s.sum ≤ c
        exfalso
        push_neg at h
        have ht'pos : ∀ x ∈ t', (0 : ℚ) ≤ x := by
          intro x hx
          have : x ∈ rest := ht'.subset hx
          linarith [hd x this]
        have : (0 : ℚ) ≤ t'.sum := List.sum_nonneg ht'pos
        linarith [hsum_eq ▸ hsum]

/-- C2: for every capacity and list of per-task ε-demands, the greedy
`solve_local_knapsack_no_profits` returns the optimum of the unit-value
0/1 knapsack — the greatest number of demands (as a sub-multiset) whose
sum fits within the capacity — whenever the capacity is positive, and
returns 0 whenever the capacity is ≤ 0 (the `-inf` marker used for
exhausted (block, α) pairs included). -/
theorem c2_solve_local_knapsack (capacity : ℚ) (demands : List ℚ) :
    (0 < capacity →
      IsGreatest
        {n : ℕ | ∃ s : List ℚ, s.Subperm demands ∧ s.sum ≤ capacity ∧
          s.length = n}
        (solve_local_knapsack_no_profits capacity demands)) ∧
    (capacity ≤ 0 → solve_local_knapsack_no_profits capacity demands = 0) := by
  constructor
  · intro hpos
    have hle : ¬ capacity ≤ 0 := not_le.2 hpos
    have hsolve : solve_local_knapsack_no_profits capacity demands =
        greedyCount capacity (demands.insertionSort (· ≤ ·)) := by
      unfold solve_local_knapsack_no_profits
      rw [if_neg hle, greedyLoop_eq]
      simp
    have hperm : (demands.insertionSort (· ≤ ·)).Perm demands :=
      List.perm_insertionSort (· ≤ ·) demands
    constructor
    · obtain ⟨s, hsub, hsum, hlen⟩ :=
        greedy_achievable (demands.insertionSort (· ≤ ·)) capacity
          (le_of_lt hpos)
      exact ⟨s, hsub.trans hperm.subperm, hsum, by rw [hlen, hsolve]⟩
    · rintro n ⟨s, hsub, hsum, rfl⟩
      rw [hsolve]
      exact greedy_optimal (demands.insertionSort (· ≤ ·))
        (List.sorted_insertionSort (· ≤ ·) demands) capacity (le_of_lt hpos) s
        (hsub.trans hperm.symm.subperm) hsum
  · intro hle
    unfold solve_local_knapsack_no_profits
    rw [if_pos hle]

/-- C2 witness at capacity 1 and demands [1/2, 2, 1/3]. -/
theorem c2_witness :
    IsGreatest
      {n : ℕ | ∃ s : List ℚ, s.Subperm [1/2, 2, 1/3] ∧ s.sum ≤ 1 ∧
        s.length = n}
      (solve_local_knapsack_no_profits 1 [1/2, 2, 1/3]) :=
  (c2_solve_local_knapsack 1 [1/2, 2, 1/3]).1 (by norm_num)

theorem get_not_mem_eraseIdx :
    ∀ (l : List ℕ) (j : ℕ) (h : j < l.length),
      l.Nodup → l.get ⟨j, h⟩ ∉ l.eraseIdx j := by
  intro l
  induction l with
  | nil => intro j h; simp at h
  | cons x t ih =>
    intro j h hn
    cases j with
    | zero =>
      simpa using (List.nodup_cons.1 hn).1
    | succ j =>
      have hj : j < t.length := by simpa using h
      have hx : x ∉ t := (List.nodup_cons.1 hn).1
      have hnt : t.Nodup := (List.nodup_cons.1 hn).2
      simp only [List.get_cons_succ, List.eraseIdx_cons_succ, List.mem_cons]
      rintro (heq | hmem)
      · exact hx (heq ▸ List.get_mem t j hj)
      · exact ih j hj hnt hmem

theorem drawDistinct_length (rand : ℕ → ℕ) :
    ∀ (k : ℕ) (pop : List ℕ) (i : ℕ), k ≤ pop.length →
      (drawDistinct rand pop k i).length = k := by
  intro k
  induction k with
  | zero => intro pop i _; cases pop <;> rfl
  | succ k ih =>
    intro pop i hk
    cases pop with
    | nil => simp at hk
    | cons p ps =>
      have hlt : rand i % (p :: ps).length < (p :: ps).length :=
        Nat.mod_lt _ (by simp)
      have herase : ((p :: ps).eraseIdx (rand i % (p :: ps).length)).length =
          ps.length := by
        rw [List.length_eraseIdx_of_lt hlt]
        simp
      have hk' : k ≤ ps.length := by
        simp only [List.length_cons] at hk
        omega
      simp only [drawDistinct]
      rw [List.length_cons, ih _ (i + 1) (by rw [herase]; exact hk')]

theorem drawDistinct_subset (rand : ℕ → ℕ) :
    ∀ (k : ℕ) (pop : List ℕ) (i : ℕ) (x : ℕ),
      x ∈ drawDistinct rand pop k i → x ∈ pop := by
  intro k
  induction k with
  | zero => intro pop i x hx; cases pop <;> simp [drawDistinct] at hx
  | succ k ih =>
    intro pop i x hx
    cases pop with
    | nil => simp [drawDistinct] at hx
    | cons p ps =>
      simp only [drawDistinct, List.mem_cons] at hx
      rcases hx with rfl | hx
      · exact List.get_mem _ _ _
      · exact List.eraseIdx_subset _ _ (ih _ _ x hx)

theorem drawDistinct_nodup (rand : ℕ → ℕ) :
    ∀ (k : ℕ) (pop : List ℕ) (i : ℕ), pop.Nodup →
      (drawDistinct rand pop k i).Nodup := by
  intro k
  induction k with
  | zero => intro pop i _; cases pop <;> simp [drawDistinct]
  | succ k ih =>
    intro pop i hn
    cases pop with
    | nil => simp [drawDistinct]
    | cons p ps =>
      simp only [drawDistinct]
      rw [List.nodup_cons]
      refine ⟨?_, ih _ _ ((List.eraseIdx_sublist _ _).nodup hn)⟩
      intro hmem
      exact get_not_mem_eraseIdx (p :: ps) _ _ hn
        (drawDistinct_subset rand k _ _ _ hmem)

/-- C7: every block-selection policy raises `NotEnoughBlocks` when more
blocks are requested than available, and otherwise returns an ordered
list of `task_blocks_num` distinct block indices, each below
`n_blocks`. -/
theorem c7_select_blocks (p : BlockPolicy) (rand : ℕ → ℕ) (coin : Bool)
    (n k : ℕ) :
    (n < k → select_blocks p rand coin n k = Except.error ()) ∧
    (k ≤ n → ∃ l, select_blocks p rand coin n k = Except.ok l ∧
      l.length = k ∧ l.Nodup ∧ ∀ x ∈ l, x < n) := by
  constructor
  · intro h
    unfold select_blocks
    rw [if_pos h]
  · intro hk
    unfold select_blocks
    rw [if_neg (not_lt.2 hk)]
    refine ⟨_, rfl, ?_⟩
    have hrange : ∀ i : ℕ,
        (drawDistinct rand (List.range n) i 0).length = i →
        (drawDistinct rand (List.range n) i 0).Nodup ∧
        ∀ x ∈ drawDistinct rand (List.range n) i 0, x < n := by
      intro i _
      exact ⟨drawDistinct_nodup rand i _ 0 (List.nodup_range n),
        fun x hx => List.mem_range.1 (drawDistinct_subset rand i _ 0 x hx)⟩
    cases p with
    | randomBlocks =>
      have hlen := drawDistinct_length rand k (List.range n) 0
        (by simpa using hk)
      exact ⟨hlen, (hrange k hlen).1, (hrange k hlen).2⟩
    | zeta =>
      have hlen := drawDistinct_length rand k (List.range n) 0
        (by simpa using hk)
      exact ⟨hlen, (hrange k hlen).1, (hrange k hlen).2⟩
    | latestBlocksFirst =>
      refine ⟨by simp, by simp [List.nodup_reverse, List.nodup_range'], ?_⟩
      intro x hx
      rw [List.mem_reverse, List.mem_range'] at hx
      obtain ⟨i, hi, rfl⟩ := hx
      omega
    | contiguousBlocksRandomOffset =>
      refine ⟨by simp, List.nodup_range' _ _, ?_⟩
      intro x hx
      rw [List.mem_range'] at hx
      obtain ⟨i, hi, rfl⟩ := hx
      have hoff : rand 0 % (n - k + 1) ≤ n - k :=
        Nat.lt_succ_iff.1 (Nat.mod_lt _ (Nat.succ_pos _))
      omega
    | biasedRandomBlocks =>
      cases coin with
      | false =>
        rw [if_neg (by simp)]
        have hlen := drawDistinct_length rand k (List.range n) 0
          (by simpa using hk)
        exact ⟨hlen, (hrange k hlen).1, (hrange k hlen).2⟩
      | true =>
        rw [if_pos rfl]
        have hpart :
            ((List.range n).filter (fun i => i % 2 == 0)).length +
              ((List.range n).filter (fun i => ! (i % 2 == 0))).length = n := by
          have hperm := List.filter_append_perm (fun i => i % 2 == 0)
            (List.range n)
          have := hperm.length_eq
          simpa [List.length_append] using this
        have hnodupE : ((List.range n).filter (fun i => i % 2 == 0)).Nodup :=
          (List.nodup_range n).filter _
        have hnodupO :
            ((List.range n).filter (fun i => ! (i % 2 == 0))).Nodup :=
          (List.nodup_range n).filter _
        by_cases hcase :
            ((List.range n).filter (fun i => i % 2 == 0)).length < k
        · rw [if_pos hcase]
          have hko : k - ((List.range n).filter (fun i => i % 2 == 0)).length ≤
              ((List.range n).filter (fun i => ! (i % 2 == 0))).length := by
            omega
          have hlenD := drawDistinct_length rand _ _ 0 hko
          refine ⟨by rw [List.length_append, hlenD]; omega, ?_, ?_⟩
          · rw [List.nodup_append]
            refine ⟨hnodupE, drawDistinct_nodup rand _ _ 0 hnodupO, ?_⟩
            intro a haE haD
            have haO := drawDistinct_subset rand _ _ 0 a haD
            have h1 := (List.mem_filter.1 haE).2
            have h2 := (List.mem_filter.1 haO).2
            rw [h1] at h2
            exact absurd h2 (by simp)
          · intro x hx
            rcases List.mem_append.1 hx with hxe | hxd
            · exact List.mem_range.1 (List.mem_filter.1 hxe).1
            · exact List.mem_range.1
                (List.mem_filter.1 (drawDistinct_subset rand _ _ 0 x hxd)).1
        · rw [if_neg hcase]
          have hke : k ≤ ((List.range n).filter (fun i => i % 2 == 0)).length :=
            le_of_not_lt hcase
          refine ⟨drawDistinct_length rand _ _ 0 hke,
            drawDistinct_nodup rand _ _ 0 hnodupE, ?_⟩
          intro x hx
          exact List.mem_range.1
            (List.mem_filter.1 (drawDistinct_subset rand _ _ 0 x hx)).1

/-- C7 witness: `LatestBlocksFirst` with 3 available blocks and k = 2. -/
theorem c7_witness :
    ∃ l, select_blocks BlockPolicy.latestBlocksFirst (fun _ => 0) true 3 2 =
        Except.ok l ∧
      l.length = 2 ∧ l.Nodup ∧ ∀ x ∈ l, x < 3 :=
  (c7_select_blocks BlockPolicy.latestBlocksFirst (fun _ => 0) true 3 2).2
    (by norm_num)

theorem ovStep_fold_lookup (blocks : ℕ → Budget ℚ) (e : ℕ × Budget ℚ) :
    ∀ (l : List ℚ), l.Nodup → ∀ (d : OvDict) (b : ℕ) (x : ℚ),
      l.foldl (ovStep blocks e) d b x =
        if b = e.1 ∧ x ∈ l then
          some ((d e.1 x).getD (-(blocks e.1).epsilon x) + e.2.epsilon x)
        else d b x := by
  intro l
  induction l with
  | nil =>
    intro _ d b x
    simp
  | cons a0 rest ih =>
    intro hnd d b x
    have ha0 : a0 ∉ rest := (List.nodup_cons.1 hnd).1
    have hndr : rest.Nodup := (List.nodup_cons.1 hnd).2
    rw [List.foldl_cons, ih hndr]
    by_cases hb : b = e.1
    · by_cases hx0 : x = a0
      · subst hx0
        simp [ovStep, hb, ha0]
      · by_cases hxr : x ∈ rest
        · simp [ovStep, hb, hx0, hxr]
        · simp [ovStep, hb, hx0, hxr]
    · simp [ovStep, hb]

theorem entrySum_cons (e0 : ℕ × Budget ℚ) (rest : List (ℕ × Budget ℚ))
    (b : ℕ) (x : ℚ) :
    entrySum (e0 :: rest) b x =
      (if e0.1 = b then e0.2.epsilon x else 0) + entrySum rest b x := by
  unfold entrySum
  rw [List.filter_cons]
  by_cases h : e0.1 = b
  · simp [h]
  · simp [h]

theorem entrySum_eq_zero (l : List (ℕ × Budget ℚ)) (b : ℕ) (x : ℚ)
    (h : l.any (fun e => decide (e.1 = b)) = false) : entrySum l b x = 0 := by
  unfold entrySum
  have hnil : l.filter (fun e => decide (e.1 = b)) = [] := by
    rw [List.filter_eq_nil_iff]
    intro e he
    rw [List.any_eq_false] at h
    exact fun hd => (h e he) hd
  rw [hnil]
  rfl

theorem entries_fold_lookup (blocks : ℕ → Budget ℚ) (A : List ℚ)
    (hnd : A.Nodup) :
    ∀ (es : List (ℕ × Budget ℚ)), (∀ e ∈ es, e.2.alphas = A) →
      ∀ (d : OvDict) (b : ℕ) (x : ℚ), x ∈ A →
        es.foldl (ovUpdate blocks) d b x =
          if es.any (fun e => decide (e.1 = b)) then
            some ((d b x).getD (-(blocks b).epsilon x) + entrySum es b x)
          else d b x := by
  intro es
  induction es with
  | nil =>
    intro _ d b x _
    simp
  | cons e0 rest ih =>
    intro hA d b x hx
    have he0 : e0.2.alphas = A := hA e0 (List.mem_cons_self e0 rest)
    have hrest : ∀ e ∈ rest, e.2.alphas = A := fun e he =>
      hA e (List.mem_cons_of_mem _ he)
    have hupd : ∀ (b' : ℕ) (x' : ℚ), ovUpdate blocks d e0 b' x' =
        if b' = e0.1 ∧ x' ∈ A then
          some ((d e0.1 x').getD (-(blocks e0.1).epsilon x') + e0.2.epsilon x')
        else d b' x' := by
      intro b' x'
      unfold ovUpdate
      rw [he0]
      exact ovStep_fold_lookup blocks e0 A hnd d b' x'
    rw [List.foldl_cons, ih hrest _ b x hx, entrySum_cons]
    by_cases hb : e0.1 = b
    · by_cases hany : rest.any (fun e => decide (e.1 = b)) = true
      · rw [if_pos hany, if_pos (by simp [hany]), hupd b x,
          if_pos ⟨hb.symm, hx⟩, if_pos hb]
        rw [hb] at *
        simp only [Option.getD_some]
        ring_nf
      · rw [Bool.not_eq_true] at hany
        rw [if_neg (by simp [hany]), hupd b x, if_pos ⟨hb.symm, hx⟩,
          if_pos (by simp [hb]), if_pos hb]
        rw [entrySum_eq_zero rest b x hany]
        rw [hb] at *
        ring_nf
    · by_cases hany : rest.any (fun e => decide (e.1 = b)) = true
      · rw [if_pos hany, if_pos (by simp [hany]), if_neg hb]
        have : ovUpdate blocks d e0 b x = d b x := by
          rw [hupd b x, if_neg (fun hc => hb hc.1.symm)]
        rw [this]
        ring_nf
      · rw [Bool.not_eq_true] at hany
        rw [if_neg (by simp [hany]), if_neg (by simp [List.any_cons, hb, hany])]
        rw [hupd b x, if_neg (fun hc => hb hc.1.symm)]

theorem touches_cons (t : TaskM) (ts : List TaskM) (b : ℕ) :
    touches (t :: ts) b =
      (t.budget_per_block.any (fun e => decide (e.1 = b)) || touches ts b) := by
  simp [touches]

theorem sum_entrySum_zero (ts : List TaskM) (b : ℕ) (x : ℚ)
    (h : touches ts b = false) :
    (ts.map (fun t => entrySum t.budget_per_block b x)).sum = 0 := by
  induction ts with
  | nil => rfl
  | cons t ts ih =>
    rw [touches_cons, Bool.or_eq_false_iff] at h
    rw [List.map_cons, List.sum_cons, entrySum_eq_zero _ _ _ h.1, ih h.2,
      add_zero]

theorem overflowDict_fold_lookup (blocks : ℕ → Budget ℚ) (A : List ℚ)
    (hnd : A.Nodup) :
    ∀ (ts : List TaskM) (d : OvDict),
      (∀ t ∈ ts, ∀ e ∈ t.budget_per_block, e.2.alphas = A) →
      ∀ (b : ℕ) (x : ℚ), x ∈ A →
        ts.foldl (fun d t => t.budget_per_block.foldl (ovUpdate blocks) d) d
            b x =
          if touches ts b then
            some ((d b x).getD (-(blocks b).epsilon x) +
              (ts.map (fun t => entrySum t.budget_per_block b x)).sum)
          else d b x := by
  intro ts
  induction ts with
  | nil =>
    intro d _ b x _
    simp [touches]
  | cons t ts ih =>
    intro d hA b x hx
    have ht : ∀ e ∈ t.budget_per_block, e.2.alphas = A :=
      hA t (List.mem_cons_self t ts)
    have hts : ∀ t' ∈ ts, ∀ e ∈ t'.budget_per_block, e.2.alphas = A :=
      fun t' ht' => hA t' (List.mem_cons_of_mem _ ht')
    simp only [List.foldl_cons]
    rw [ih _ hts b x hx, touches_cons]
    have hd1 := entries_fold_lookup blocks A hnd t.budget_per_block ht d b x hx
    by_cases htb : t.budget_per_block.any (fun e => decide (e.1 = b)) = true
    · rw [htb] at hd1
      simp only [if_pos trivial] at hd1
      by_cases htts : touches ts b = true
      · rw [if_pos htts, if_pos (by simp [htb]), hd1]
        simp only [Option.getD_some, List.map_cons, List.sum_cons]
        ring_nf
      · rw [if_neg (by simpa using htts), hd1, if_pos (by simp [htb]),
          List.map_cons, List.sum_cons,
          sum_entrySum_zero ts b x (by simpa using htts), add_zero]
    · rw [Bool.not_eq_true] at htb
      rw [htb] at hd1
      simp only [Bool.false_eq_true, if_false] at hd1
      by_cases htts : touches ts b = true
      · rw [if_pos htts, if_pos (by simp [htts]), hd1, List.map_cons,
          List.sum_cons, entrySum_eq_zero _ _ _ htb, zero_add]
      · rw [if_neg (by simpa using htts), hd1,
          if_neg (by simp [htb, htts] at htts ⊢ <;> simp [htts])]

theorem blockCostLoop_eq (ov : OvDict) (bid : ℕ) (dem : Budget ℚ)
    (f : ℚ → ℚ) :
    ∀ (l : List ℚ) (acc : ℚ), (∀ a ∈ l, ov bid a = some (f a)) →
      blockCostLoop ov bid dem l acc =
        some (if l.any (fun a => decide (f a ≤ 0)) then 0
              else acc + (l.map (fun a => dem.epsilon a / f a)).sum) := by
  intro l
  induction l with
  | nil =>
    intro acc _
    simp [blockCostLoop]
  | cons a rest ih =>
    intro acc hov
    have ha : ov bid a = some (f a) := hov a (List.mem_cons_self a rest)
    have hrest : ∀ a' ∈ rest, ov bid a' = some (f a') := fun a' ha' =>
      hov a' (List.mem_cons_of_mem _ ha')
    simp only [blockCostLoop, ha]
    by_cases h0 : 0 < f a
    · rw [if_pos h0, ih _ hrest]
      have hdec : decide (f a ≤ 0) = false := by simp [not_le.2 h0]
      rw [List.any_cons, hdec, Bool.false_or, List.map_cons, List.sum_cons]
      by_cases hany : rest.any (fun a' => decide (f a' ≤ 0)) = true
      · rw [if_pos hany, if_pos hany]
      · rw [Bool.not_eq_true] at hany
        rw [if_neg (by simp [hany]), if_neg (by simp [hany])]
        congr 1
        ring
    · rw [if_neg h0]
      have hdec : decide (f a ≤ 0) = true := by simp [not_lt.1 h0]
      rw [List.any_cons, hdec, Bool.true_or, if_pos rfl]

theorem costsFold_eq (D : OvDict) (spec : ℕ → Budget ℚ → ℚ) :
    ∀ (es : List (ℕ × Budget ℚ)) (s0 : ℚ),
      (∀ e ∈ es, blockCostLoop D e.1 e.2 e.2.alphas 0 =
        some (spec e.1 e.2)) →
      es.foldl (fun acc e => acc.bind (fun s =>
          (blockCostLoop D e.1 e.2 e.2.alphas 0).map (fun c => s + c)))
          (some s0) =
        some (s0 + (es.map (fun e => spec e.1 e.2)).sum) := by
  intro es
  induction es with
  | nil =>
    intro s0 _
    simp
  | cons e rest ih =>
    intro s0 hg
    have he := hg e (List.mem_cons_self e rest)
    have hrest : ∀ e' ∈ rest, blockCostLoop D e'.1 e'.2 e'.2.alphas 0 =
        some (spec e'.1 e'.2) := fun e' he' =>
      hg e' (List.mem_cons_of_mem _ he')
    simp only [List.foldl_cons]
    have hstep : ((some s0).bind fun s =>
        Option.map (fun c => s + c) (blockCostLoop D e.1 e.2 e.2.alphas 0)) =
          some (s0 + spec e.1 e.2) := by
      rw [he]
      rfl
    rw [hstep, ih _ hrest, List.map_cons, List.sum_cons]
    congr 1
    ring

/-- C3: with all budgets sharing the same (duplicate-free) α support and
the ranked task among the pending tasks, `OverflowRelevance.apply`
returns exactly the spec rank: `profit / total_cost` with
`overflow(b,α) = Σ_{t∈pending} t.demand.ε(α) − initial(b).ε(α)`, each
block contributing `Σ_α demand.ε(α)/overflow(b,α)` — or 0 as soon as
some α of that block has overflow ≤ 0 — and `+inf` when the total cost
is ≤ 0. -/
theorem c3_overflow_relevance (A : List ℚ) (task : TaskM)
    (blocks : ℕ → Budget ℚ) (tasks : List TaskM)
    (hnd : A.Nodup)
    (hA : ∀ t ∈ tasks, ∀ e ∈ t.budget_per_block, e.2.alphas = A)
    (htask : task ∈ tasks) :
    overflowRelevanceApply task blocks tasks =
      some (overflowRelevanceSpec task blocks tasks) := by
  have hdict : ∀ (b : ℕ) (x : ℚ), x ∈ A → touches tasks b = true →
      overflowDict blocks tasks b x =
        some (overflowSpec blocks tasks b x) := by
    intro b x hx htb
    unfold overflowDict
    rw [overflowDict_fold_lookup blocks A hnd tasks _ hA b x hx, if_pos htb]
    unfold overflowSpec
    simp only [Option.getD_none]
    rw [neg_add_eq_sub]
  have hcosts : ∀ e ∈ task.budget_per_block,
      blockCostLoop (overflowDict blocks tasks) e.1 e.2 e.2.alphas 0 =
        some (blockCostSpec blocks tasks e.1 e.2) := by
    intro e he
    have heA : e.2.alphas = A := hA task htask e he
    have htb : touches tasks e.1 = true := by
      unfold touches
      rw [List.any_eq_true]
      refine ⟨task, htask, ?_⟩
      rw [List.any_eq_true]
      exact ⟨e, he, by simp⟩
    rw [blockCostLoop_eq (overflowDict blocks tasks) e.1 e.2
      (overflowSpec blocks tasks e.1) e.2.alphas 0
      (fun a ha => hdict e.1 a (heA ▸ ha) htb)]
    unfold blockCostSpec
    simp only [zero_add]
  unfold overflowRelevanceApply
  rw [costsFold_eq (overflowDict blocks tasks)
    (fun b dem => blockCostSpec blocks tasks b dem) task.budget_per_block 0
    hcosts]
  unfold overflowRelevanceSpec
  simp only [zero_add]
  rfl

/-- C3 witness: one block with initial ε = 1 at α = 2, a single pending
task demanding ε = 3 on it, ranked against itself. -/
theorem c3_witness :
    overflowRelevanceApply taskC3 blocksC3 [taskC3] =
      some (overflowRelevanceSpec taskC3 blocksC3 [taskC3]) :=
  c3_overflow_relevance [2] taskC3 blocksC3 [taskC3] (by decide)
    (by
      intro t ht e he
      rw [List.mem_singleton] at ht
      subst ht
      have he' : e ∈ [((0 : ℕ), demB)] := he
      rw [List.mem_singleton] at he'
      subst he'
      rfl)
    (List.mem_singleton.mpr rfl)

/-- C10: calling `BatchOverflowRelevance.apply` with the overflow dict
absent or empty always raises before producing a rank: the fallback
invokes `compute_overflow` on the class with shifted positional
arguments, so its `tasks` parameter stays `None` and `for t in tasks`
raises `TypeError`.  Hence only calls supplied with a non-empty
precomputed overflow dict can return a value. -/
theorem c10_batch_overflow_apply (task : TaskM) (avail : ℕ → Budget ℚ)
    (tasks : Option (List TaskM)) (overflow : OvA) :
    BatchOverflowRelevance_apply task avail tasks [] = none ∧
    ((BatchOverflowRelevance_apply task avail tasks overflow).isSome = true →
      overflow ≠ []) := by
  have hnil : BatchOverflowRelevance_apply task avail tasks [] = none := by
    unfold BatchOverflowRelevance_apply
    rw [if_neg (by simp)]
    rfl
  refine ⟨hnil, ?_⟩
  intro h heq
  rw [heq, hnil] at h
  simp at h

/-- C10 witness: with the non-empty dict {0: {}} and a task touching no
blocks, `apply` does return a rank, and the theorem yields the dict's
non-emptiness. -/
theorem c10_witness : ([((0 : ℕ), ([] : List (ℚ × QInf)))] : OvA) ≠ [] :=
  (c10_batch_overflow_apply taskEmpty availEmpty none [(0, [])]).2 (by rfl)

/-- C5 (code bug): one block with available unlocked ε = 1 at every α,
one pending task demanding ε = 1/2 everywhere — every overflow entry is
−1/2 ≤ 0, so the claim (and the code's own comment) require the block's
relevance row to be 0.  Instead `overflow[block_id] =
np.empty(...).fill(inf)` assigns `None` (`ndarray.fill` returns `None`),
stored as NaN, and the returned row is all-NaN — for every temperature
and every value of the finite exponential. -/
theorem c5_softmax_overflow_nan_row (realexp : ℚ → ℚ) (temperature : ℚ) :
    SoftmaxOverflow_relevance realexp temperature [fun _ => 1]
        [fun _ _ => 1/2] =
      [List.replicate ALPHAS.length PyFloat.nan] ∧
    PyFloat.nan ≠ PyFloat.fin 0 := by
  constructor
  · norm_num [SoftmaxOverflow_relevance, ALPHAS, rowMin, PyFloat.min2,
      PyFloat.leb, PyFloat.sub, PyFloat.add, PyFloat.neg, PyFloat.mul,
      PyFloat.pexp, PyFloat.div, List.zipWith, List.replicate,
      List.range_succ, List.range_zero]
  · intro h
    cases h

/-- C6 counterexample: with `data_lifetime = 5`, the clock triggers
`task_production_terminated` at t₀ + 1 (one `block_arrival_interval`
tick after the last block), strictly earlier than the
t₀ + data_lifetime the claim requires. -/
theorem c6_counterexample :
    (runClock 0 ⟨0, none⟩
        (termination_clock blockArrivalInterval 5)).taskProdTriggeredAt =
        some 1 ∧
      ¬ ((0 : ℚ) + 5 ≤ 1) := by
  constructor
  · norm_num [runClock, termination_clock, runClockStep, blockArrivalInterval]
  · norm_num

end DPack
